import Mathlib

/-!
Verification of the panini2 greedy scheduler core (src/interval.rs,
src/allocators.rs, src/scheduler.rs).

Modelling conventions:
* `jiff::Timestamp` is modelled as `Int`, counted in whole seconds.  Every
  timestamp the program manipulates (window bounds and plan bounds parsed from
  `"%F %R"` strings, `current_time` advanced by whole-second spans) is a whole
  number of seconds.
* `jiff::Span` values (granularity, `work_span`) are modelled as `Int` seconds.
* `f32`/`f64` arithmetic is modelled exactly over `ℚ`; the float cast
  `(x as i32)` (truncation toward zero, saturating at the `i32` bounds) is
  modelled by `i32cast`.
* `BTreeMap<Interval, String>` is modelled as an association list kept
  strictly sorted by the map's key order; the structural invariants of the
  map (strictly sorted, hence duplicate-free, keys) appear as `PlansSorted`
  hypotheses where needed.
* The field `end` of `Interval` is called `stop` (`end` is a Lean keyword).
-/

namespace Panini

/-- `Interval` from src/interval.rs: `{start, end}` (here `stop`) instants. -/
structure Interval where
  start : Int
  stop : Int
deriving DecidableEq, Repr

instance : Inhabited Interval := ⟨⟨0, 0⟩⟩

/-- `Interval::new`. -/
def Interval.new (start stop : Int) : Interval := ⟨start, stop⟩

/-- `Interval::from_span`. -/
def Interval.from_span (start : Int) (span : Int) : Interval := ⟨start, start + span⟩

/-- `Interval::move_to`: `end += start - self.start; start = new_start`. -/
def Interval.move_to (i : Interval) (start : Int) : Interval :=
  ⟨start, i.stop + (start - i.start)⟩

/-- `Interval::span`. -/
def Interval.span (i : Interval) : Int := i.stop - i.start

/-- `Interval::hours`: the span expressed in hours (exact rational). -/
def Interval.hours (i : Interval) : ℚ := (i.span : ℚ) / 3600

/-- `Interval::set_span`: `end = start + span`. -/
def Interval.set_span (i : Interval) (span : Int) : Interval := ⟨i.start, i.start + span⟩

/-- `Interval::intercepts`: `self.start < other.end && other.start < self.end`. -/
def Interval.intercepts (a b : Interval) : Prop := a.start < b.stop ∧ b.start < a.stop

instance (a b : Interval) : Decidable (a.intercepts b) := by
  unfold Interval.intercepts; infer_instance

/-- Modelled from the spec: `Interval::contains` is used by
`Plans::insert_with_overriding` (src/allocators.rs) but its definition is
absent from src/interval.rs.  Spec §4.1 speaks of an entry "fully contained
in `interval`" / "that fully contains `interval`", so containment of the
half-open range: `self.start <= other.start && other.end <= self.end`. -/
def Interval.contains (a b : Interval) : Prop := a.start ≤ b.start ∧ b.stop ≤ a.stop

instance (a b : Interval) : Decidable (a.contains b) := by
  unfold Interval.contains; infer_instance

/-- Modelled from the spec: `Interval::partially_intercepts` (name shortened;
the original identifier is rejected by the verification tooling) is used by
`Plans::insert_with_overriding` but absent from src/interval.rs.  Spec §4.1:
an entry "that partially overlaps `interval` (overlaps on exactly one side)",
i.e. the two intervals intersect but neither contains the other. -/
def Interval.partly_intercepts (a b : Interval) : Prop :=
  a.intercepts b ∧ ¬ a.contains b ∧ ¬ b.contains a

instance (a b : Interval) : Decidable (a.partly_intercepts b) := by
  unfold Interval.partly_intercepts; infer_instance

/-- Modelled from the spec: the `Ord` instance making `Interval` usable as a
`BTreeMap` key is absent from src/interval.rs.  Spec §3: the PlanSet is "a
totally ordered (by start) collection", so keys are ordered by `start`, with
`end` as the tie-breaker needed for a total order on distinct keys. -/
def Interval.keyLt (a b : Interval) : Prop :=
  a.start < b.start ∨ (a.start = b.start ∧ a.stop < b.stop)

instance (a b : Interval) : Decidable (a.keyLt b) := by
  unfold Interval.keyLt; infer_instance

/-- `Task` from src/tasks.rs (floats exact over `ℚ`). -/
structure Task where
  description : String
  deadline : Int
  priority : ℚ
  volume : ℚ
  dependencies : List Nat
deriving DecidableEq, Repr

instance : Inhabited Task := ⟨⟨"", 0, 0, 0, []⟩⟩

/-- The `BTreeMap<Interval, String>` of plans: an association list strictly
sorted by `Interval.keyLt`. -/
abbrev Plans := List (Interval × String)

/-- `TaskAllocatorWithPlans` from src/allocators.rs. -/
structure TaskAllocatorWithPlans where
  granularity : Int
  plans : Plans
deriving DecidableEq, Repr

/-- `Scheduler` from src/scheduler.rs.  `inner` is the per-task list of
committed intervals.  The `heuristics: Vec<Heuristic>` field holds function
pointers; since a structure cannot contain functions over itself, the
heuristics list is passed alongside the state to `Scheduler.next`. -/
structure Scheduler where
  inner : List (List Interval)
  tasks : List Task
  allocator : TaskAllocatorWithPlans
  interval : Interval
  current_time : Int
deriving DecidableEq, Repr

/-- `Scheduler::get_total_task_hours`:
`self.inner.get(idx).map(|l| l.iter().map(hours).sum()).unwrap_or(0.0)`. -/
def Scheduler.get_total_task_hours (s : Scheduler) (task_idx : Nat) : ℚ :=
  ((s.inner.getD task_idx []).map Interval.hours).sum

/-- Truncation toward zero of a rational, as Rust's float-to-int cast does
before saturation. -/
def ratTrunc (x : ℚ) : Int := if 0 ≤ x then ⌊x⌋ else ⌈x⌉

/-- Rust's `as i32` float cast: truncate toward zero, saturating at the
`i32` bounds. -/
def i32cast (x : ℚ) : Int := max (-(2 ^ 31)) (min (2 ^ 31 - 1) (ratTrunc x))

/-- One iteration of the plan-avoidance loop in
`TaskAllocatorWithPlans::allocate`: skip non-intersecting plans, move the
candidate to the plan's end when it starts at or inside the plan, otherwise
truncate the candidate's end to the plan's start. -/
def allocStep (c : Interval) (p : Interval) : Interval :=
  if ¬ c.intercepts p then c
  else if c.start ≥ p.start then c.move_to p.stop
  else ⟨c.start, p.start⟩

/-- `TaskAllocatorWithPlans::allocate` (src/allocators.rs lines 24–58):
build the candidate `[current_time, current_time + granularity)`, shrink it
to the remaining work span when that fits in the granularity, clamp against
the scheduling window's end, then scan the plans in ascending key order. -/
def TaskAllocatorWithPlans.allocate (al : TaskAllocatorWithPlans) (s : Scheduler)
    (task_idx : Nat) : Interval :=
  let a0 := Interval.new s.current_time (s.current_time + al.granularity)
  let task := s.tasks.getD task_idx default
  let work_hours : ℚ := task.volume - s.get_total_task_hours task_idx
  let work_span : Int := i32cast (work_hours * 3600)
  let a1 := if work_hours ≤ (al.granularity : ℚ) / 3600 then a0.set_span work_span else a0
  let a2 := if s.current_time + work_span ≥ s.interval.stop
    then ⟨a1.start, s.interval.stop⟩ else a1
  (al.plans.map Prod.fst).foldl allocStep a2

/-- The test scheduler of src/tests.rs (`get_test_scheduler`), time measured
in seconds from 2025-03-05T00:00Z, restricted to the fields `allocate` reads. -/
def testScheduler : Scheduler :=
  { inner := [[], [], [], [], [], []]
    tasks :=
      [ ⟨"Task 0", 43200, 1, 2, [4]⟩
      , ⟨"Task 1", 61200, 1, 1, [0]⟩
      , ⟨"Task 2", 46800, 2, 3, []⟩
      , ⟨"Task 3", 64800, 1, 3, [2]⟩
      , ⟨"Empty task", 68400, 1, 0, []⟩
      , ⟨"Zero priority task", 68400, 0, 1/2, []⟩ ]
    allocator :=
      { granularity := 3600
        plans := [(⟨0, 7200⟩, ""), (⟨10200, 11400⟩, ""), (⟨14400, 18000⟩, "")] }
    interval := ⟨0, 86400⟩
    current_time := 0 }

-- The four assertions of `test_task_allocator` (src/allocators.rs), replayed
-- on the model.
example : testScheduler.allocator.allocate testScheduler 0 = ⟨7200, 10200⟩ := by
  norm_num [TaskAllocatorWithPlans.allocate, testScheduler, Scheduler.get_total_task_hours,
    Interval.hours, Interval.span, i32cast, ratTrunc, allocStep, Interval.new,
    Interval.set_span, Interval.move_to, Interval.intercepts]

example :
    testScheduler.allocator.allocate { testScheduler with current_time := 84000 } 1
      = ⟨84000, 86400⟩ := by
  norm_num [TaskAllocatorWithPlans.allocate, testScheduler, Scheduler.get_total_task_hours,
    Interval.hours, Interval.span, i32cast, ratTrunc, allocStep, Interval.new,
    Interval.set_span, Interval.move_to, Interval.intercepts]

example :
    testScheduler.allocator.allocate { testScheduler with current_time := 7200 } 5
      = ⟨7200, 9000⟩ := by
  norm_num [TaskAllocatorWithPlans.allocate, testScheduler, Scheduler.get_total_task_hours,
    Interval.hours, Interval.span, i32cast, ratTrunc, allocStep, Interval.new,
    Interval.set_span, Interval.move_to, Interval.intercepts]

example :
    testScheduler.allocator.allocate { testScheduler with current_time := 16200 } 5
      = ⟨18000, 19800⟩ := by
  norm_num [TaskAllocatorWithPlans.allocate, testScheduler, Scheduler.get_total_task_hours,
    Interval.hours, Interval.span, i32cast, ratTrunc, allocStep, Interval.new,
    Interval.set_span, Interval.move_to, Interval.intercepts]

/-- The `BTreeMap` structural invariant: keys strictly ascending. -/
def PlansSorted (m : Plans) : Prop := m.Pairwise (fun a b => a.1.keyLt b.1)

/-- No two plan entries intersect. -/
def PlansDisjoint (m : Plans) : Prop := m.Pairwise (fun a b => ¬ a.1.intercepts b.1)

instance (m : Plans) : Decidable (PlansSorted m) := by
  unfold PlansSorted; infer_instance

instance (m : Plans) : Decidable (PlansDisjoint m) := by
  unfold PlansDisjoint; infer_instance

lemma allocStep_not_intercepts_self (c p : Interval) : ¬ (allocStep c p).intercepts p := by
  unfold allocStep Interval.move_to Interval.intercepts at *
  split_ifs with h1 h2 <;> simp_all <;> omega

lemma allocStep_preserves_avoid (c p q : Interval) (hq : ¬ c.intercepts q)
    (hle : q.start ≤ p.start) (hqp : ¬ q.intercepts p) :
    ¬ (allocStep c p).intercepts q := by
  unfold allocStep Interval.move_to Interval.intercepts at *
  split_ifs with h1 h2 <;> simp_all <;> omega

lemma foldl_allocStep_avoids (ps : List Interval) :
    ∀ (c : Interval) (D : List Interval),
      (∀ q ∈ D, ¬ c.intercepts q) →
      (∀ q ∈ D, ∀ p ∈ ps, q.start ≤ p.start ∧ ¬ q.intercepts p) →
      ps.Pairwise (fun a b => a.start ≤ b.start) →
      ps.Pairwise (fun a b => ¬ a.intercepts b) →
      ∀ r, r ∈ D ∨ r ∈ ps → ¬ (ps.foldl allocStep c).intercepts r := by
  induction ps with
  | nil =>
    intro c D hD _ _ _ r hr
    simp only [List.foldl_nil]
    rcases hr with h | h
    · exact hD r h
    · simp at h
  | cons p rest ih =>
    intro c D hD hDps hsort hdisj r hr
    simp only [List.foldl_cons]
    have hsort' := (List.pairwise_cons.mp hsort)
    have hdisj' := (List.pairwise_cons.mp hdisj)
    have step1 : ∀ q ∈ p :: D, ¬ (allocStep c p).intercepts q := by
      intro q hq
      rcases List.mem_cons.mp hq with h | hq
      · rw [h]; exact allocStep_not_intercepts_self c p
      · exact allocStep_preserves_avoid c p q (hD q hq)
          (hDps q hq p (List.mem_cons_self p rest)).1
          (hDps q hq p (List.mem_cons_self p rest)).2
    have step2 : ∀ q ∈ p :: D, ∀ p2 ∈ rest, q.start ≤ p2.start ∧ ¬ q.intercepts p2 := by
      intro q hq p2 hp2
      rcases List.mem_cons.mp hq with h | hq
      · rw [h]; exact ⟨hsort'.1 p2 hp2, hdisj'.1 p2 hp2⟩
      · exact hDps q hq p2 (List.mem_cons_of_mem p hp2)
    have := ih (allocStep c p) (p :: D) step1 step2 hsort'.2 hdisj'.2 r
    rcases hr with h | h
    · exact this (Or.inl (List.mem_cons_of_mem p h))
    · rcases List.mem_cons.mp h with h2 | h2
      · exact this (Or.inl (by rw [h2]; exact List.mem_cons_self p D))
      · exact this (Or.inr h2)

/-- C1.  For every scheduler state whose plan set satisfies the `BTreeMap`
structural invariant (keys strictly ascending) and whose entries are pairwise
non-intersecting, and for every task index, the interval returned by
`TaskAllocatorWithPlans::allocate` intersects no entry of the plan set: the
single left-to-right pass over the sorted entries suffices. -/
theorem allocate_avoids_plans (s : Scheduler) (task_idx : Nat)
    (hsort : PlansSorted s.allocator.plans)
    (hdisj : PlansDisjoint s.allocator.plans) :
    ∀ e ∈ s.allocator.plans,
      ¬ (s.allocator.allocate s task_idx).intercepts e.1 := by
  intro e he
  have hsort2 : (s.allocator.plans.map Prod.fst).Pairwise (fun a b => a.start ≤ b.start) := by
    refine (List.pairwise_map.mpr ?_)
    refine hsort.imp ?_
    intro a b hab
    rcases hab with h | ⟨h, _⟩
    · exact le_of_lt h
    · exact le_of_eq h
  have hdisj2 : (s.allocator.plans.map Prod.fst).Pairwise (fun a b => ¬ a.intercepts b) :=
    List.pairwise_map.mpr hdisj
  have hmem : e.1 ∈ s.allocator.plans.map Prod.fst := List.mem_map_of_mem Prod.fst he
  exact foldl_allocStep_avoids (s.allocator.plans.map Prod.fst) _ []
    (by intro q hq; simp at hq) (by intro q hq; simp at hq)
    hsort2 hdisj2 e.1 (Or.inr hmem)

/-- Witness for C1: the test scheduler's plan set is sorted and disjoint, and
the allocated interval avoids all three plans. -/
theorem allocate_avoids_plans_witness :
    PlansSorted testScheduler.allocator.plans ∧
    PlansDisjoint testScheduler.allocator.plans ∧
    ∀ e ∈ testScheduler.allocator.plans,
      ¬ (testScheduler.allocator.allocate testScheduler 0).intercepts e.1 :=
  ⟨by decide, by decide, allocate_avoids_plans testScheduler 0 (by decide) (by decide)⟩

/-- A scheduler state in which task 0 has 2 committed hours against a volume
of 1 hour: its remaining volume is negative. -/
def overcommitScheduler : Scheduler :=
  { inner := [[⟨-7200, 0⟩]]
    tasks := [⟨"T", 86400, 1, 1, []⟩]
    allocator := { granularity := 3600, plans := [] }
    interval := ⟨0, 86400⟩
    current_time := 0 }

/-- C3 (code bug).  The spec demands that the allocator "must not produce a
negative-length interval regardless", but when a task's remaining volume is
negative (volume 1h, 2h already committed), `allocate` calls `set_span` with
the negative remaining span and returns `[0, -3600)`, an interval with
`start > end`. -/
theorem allocate_negative_interval_bug :
    overcommitScheduler.allocator.allocate overcommitScheduler 0 = ⟨0, -3600⟩ ∧
    (overcommitScheduler.allocator.allocate overcommitScheduler 0).stop <
      (overcommitScheduler.allocator.allocate overcommitScheduler 0).start := by
  have h : overcommitScheduler.allocator.allocate overcommitScheduler 0 = ⟨0, -3600⟩ := by
    norm_num [TaskAllocatorWithPlans.allocate, overcommitScheduler,
      Scheduler.get_total_task_hours, Interval.hours, Interval.span, i32cast, ratTrunc,
      allocStep, Interval.new, Interval.set_span, Interval.move_to, Interval.intercepts,
      Int.ceil_neg, Int.ceil_intCast, Int.floor_intCast]
  exact ⟨h, by rw [h]; norm_num⟩

/-- A state (granularity 1h, a plan `[17:00, 17:50)` inside the window
`[0, 18:00)`, cursor at 17:10, 100 remaining hours) in which the
plan-avoidance pass moves the candidate past the window's end. -/
def windowOverrunScheduler : Scheduler :=
  { inner := [[]]
    tasks := [⟨"T", 86400, 1, 100, []⟩]
    allocator := { granularity := 3600, plans := [(⟨61200, 64200⟩, "plan")] }
    interval := ⟨0, 64800⟩
    current_time := 61800 }

/-- Counterexample to C2 as stated: with a sorted, pairwise non-intersecting
plan set and the cursor inside the scheduling window, the returned interval's
end (67200) exceeds the scheduling window's end (64800): step 5's `move_to`
runs after the window clamp and can push the interval past the window. -/
theorem allocate_window_overrun :
    PlansSorted windowOverrunScheduler.allocator.plans ∧
    PlansDisjoint windowOverrunScheduler.allocator.plans ∧
    windowOverrunScheduler.current_time < windowOverrunScheduler.interval.stop ∧
    windowOverrunScheduler.allocator.allocate windowOverrunScheduler 0 = ⟨64200, 67200⟩ ∧
    windowOverrunScheduler.interval.stop <
      (windowOverrunScheduler.allocator.allocate windowOverrunScheduler 0).stop := by
  have h : windowOverrunScheduler.allocator.allocate windowOverrunScheduler 0
      = ⟨64200, 67200⟩ := by
    norm_num [TaskAllocatorWithPlans.allocate, windowOverrunScheduler,
      Scheduler.get_total_task_hours, Interval.hours, Interval.span, i32cast, ratTrunc,
      allocStep, Interval.new, Interval.set_span, Interval.move_to, Interval.intercepts]
  exact ⟨by decide, by decide, by decide, h, by rw [h]; norm_num [windowOverrunScheduler]⟩

lemma i32cast_le_of_nonneg {x : ℚ} (hx : 0 ≤ x) : (i32cast x : ℚ) ≤ x := by
  unfold i32cast ratTrunc
  rw [if_pos hx]
  have h1 : (⌊x⌋ : ℚ) ≤ x := Int.floor_le x
  have h2 : (0 : Int) ≤ ⌊x⌋ := Int.floor_nonneg.mpr hx
  have h3 : min (2 ^ 31 - 1) ⌊x⌋ ≤ ⌊x⌋ := min_le_right _ _
  have h4 : (-(2 ^ 31) : Int) ≤ min (2 ^ 31 - 1) ⌊x⌋ := by
    refine le_min (by norm_num) (by omega)
  rw [max_eq_right h4]
  calc ((min (2 ^ 31 - 1) ⌊x⌋ : Int) : ℚ) ≤ (⌊x⌋ : ℚ) := by exact_mod_cast h3
    _ ≤ x := h1

lemma i32cast_nonpos_of_neg {x : ℚ} (hx : x < 0) : i32cast x ≤ 0 := by
  unfold i32cast ratTrunc
  rw [if_neg (by exact not_le.mpr hx)]
  have h1 : ⌈x⌉ ≤ 0 := Int.ceil_le.mpr (by exact_mod_cast hx.le)
  have h2 : min (2 ^ 31 - 1) ⌈x⌉ ≤ ⌈x⌉ := min_le_right _ _
  have : max (-(2 ^ 31) : Int) (min (2 ^ 31 - 1) ⌈x⌉) ≤ max (-(2 ^ 31)) 0 :=
    max_le_max le_rfl (by omega)
  calc max (-(2 ^ 31) : Int) (min (2 ^ 31 - 1) ⌈x⌉) ≤ max (-(2 ^ 31)) 0 := this
    _ = 0 := by norm_num

lemma i32cast_ge_int {x : ℚ} {g : Int} (hg0 : 0 ≤ g) (hghi : g ≤ 2 ^ 31 - 1)
    (hgx : (g : ℚ) < x) : g ≤ i32cast x := by
  unfold i32cast ratTrunc
  have hx : (0 : ℚ) ≤ x := le_trans (by exact_mod_cast hg0) hgx.le
  rw [if_pos hx]
  have h1 : g ≤ ⌊x⌋ := Int.le_floor.mpr hgx.le
  have h2 : g ≤ min (2 ^ 31 - 1) ⌊x⌋ := le_min hghi h1
  exact le_trans h2 (le_max_right _ _)

lemma allocStep_span_le (c p : Interval) : (allocStep c p).span ≤ c.span := by
  unfold allocStep Interval.move_to Interval.span Interval.intercepts
  split_ifs with h1 h2 <;> simp_all <;> omega

lemma foldl_allocStep_span_le (ps : List Interval) (c : Interval) :
    (ps.foldl allocStep c).span ≤ c.span := by
  induction ps generalizing c with
  | nil => simp [List.foldl_nil]
  | cons p rest ih =>
    simp only [List.foldl_cons]
    exact le_trans (ih (allocStep c p)) (allocStep_span_le c p)

lemma pre_loop_stop_le (ct g stop : Int) (wh : ℚ) (hg : 0 ≤ g) (hghi : g ≤ 2 ^ 31 - 1) :
    ((if ct + i32cast (wh * 3600) ≥ stop
      then (⟨(if wh ≤ (g : ℚ) / 3600
          then (Interval.new ct (ct + g)).set_span (i32cast (wh * 3600))
          else Interval.new ct (ct + g)).start, stop⟩ : Interval)
      else (if wh ≤ (g : ℚ) / 3600
          then (Interval.new ct (ct + g)).set_span (i32cast (wh * 3600))
          else Interval.new ct (ct + g))).stop) ≤ stop := by
  rcases le_or_lt stop (ct + i32cast (wh * 3600)) with hclamp | hclamp
  · rw [if_pos hclamp]
  · rw [if_neg (by omega)]
    rcases le_or_lt wh ((g : ℚ) / 3600) with hshrink | hshrink
    · rw [if_pos hshrink]
      simp only [Interval.set_span, Interval.new]
      omega
    · rw [if_neg (by exact not_le.mpr hshrink)]
      simp only [Interval.new]
      have hgw : (g : ℚ) < wh * 3600 := by
        rw [div_lt_iff₀ (by norm_num : (0:ℚ) < 3600)] at hshrink
        linarith
      have hws : g ≤ i32cast (wh * 3600) := i32cast_ge_int hg hghi hgw
      omega

/-- C2 amended.  With a non-negative granularity the returned interval is
never longer than `max(granularity_hours, remaining_task_volume)`; and with
an empty plan set (granularity also below the `i32` saturation bound) its end
never exceeds the scheduling window's end.  (With blocking plans the end can
exceed the window — see the counterexample.) -/
theorem allocate_length_window_bounds (s : Scheduler) (task_idx : Nat)
    (hg : 0 ≤ s.allocator.granularity) :
    (s.allocator.allocate s task_idx).hours ≤
        max ((s.allocator.granularity : ℚ) / 3600)
          ((s.tasks.getD task_idx default).volume - s.get_total_task_hours task_idx) ∧
    (s.allocator.plans = [] → s.allocator.granularity ≤ 2 ^ 31 - 1 →
        (s.allocator.allocate s task_idx).stop ≤ s.interval.stop) := by
  set g : Int := s.allocator.granularity with hgdef
  set wh : ℚ := (s.tasks.getD task_idx default).volume - s.get_total_task_hours task_idx
    with hwh
  set ws : Int := i32cast (wh * 3600) with hws
  constructor
  · -- length bound
    have hspan : (s.allocator.allocate s task_idx).span ≤
        (if s.current_time + ws ≥ s.interval.stop
          then (⟨(if wh ≤ (g : ℚ) / 3600
              then (Interval.new s.current_time (s.current_time + g)).set_span ws
              else Interval.new s.current_time (s.current_time + g)).start,
            s.interval.stop⟩ : Interval)
          else (if wh ≤ (g : ℚ) / 3600
              then (Interval.new s.current_time (s.current_time + g)).set_span ws
              else Interval.new s.current_time (s.current_time + g))).span := by
      exact foldl_allocStep_span_le _ _
    have hbound : ((if s.current_time + ws ≥ s.interval.stop
          then (⟨(if wh ≤ (g : ℚ) / 3600
              then (Interval.new s.current_time (s.current_time + g)).set_span ws
              else Interval.new s.current_time (s.current_time + g)).start,
            s.interval.stop⟩ : Interval)
          else (if wh ≤ (g : ℚ) / 3600
              then (Interval.new s.current_time (s.current_time + g)).set_span ws
              else Interval.new s.current_time (s.current_time + g))).span : ℚ) ≤
        3600 * max ((g : ℚ) / 3600) wh := by
      have hg36 : (0 : ℚ) ≤ (g : ℚ) / 3600 := by positivity
      have hgmax : (g : ℚ) ≤ 3600 * max ((g : ℚ) / 3600) wh := by
        have : (g : ℚ) / 3600 ≤ max ((g : ℚ) / 3600) wh := le_max_left _ _
        nlinarith [this]
      have hwsle : (0 : ℚ) ≤ wh → (ws : ℚ) ≤ 3600 * max ((g : ℚ) / 3600) wh := by
        intro hwh0
        have h1 : (ws : ℚ) ≤ wh * 3600 := i32cast_le_of_nonneg (by positivity)
        have h2 : wh ≤ max ((g : ℚ) / 3600) wh := le_max_right _ _
        nlinarith
      have hwsneg : wh < 0 → (ws : ℚ) ≤ 3600 * max ((g : ℚ) / 3600) wh := by
        intro hwh0
        have h1 : ws ≤ 0 := i32cast_nonpos_of_neg (by nlinarith)
        have h2 : ((g : ℚ) / 3600) ≤ max ((g : ℚ) / 3600) wh := le_max_left _ _
        have h3 : (ws : ℚ) ≤ 0 := by exact_mod_cast h1
        nlinarith
      have hwsany : (ws : ℚ) ≤ 3600 * max ((g : ℚ) / 3600) wh := by
        rcases le_or_lt 0 wh with h | h
        · exact hwsle h
        · exact hwsneg h
      split_ifs with hclamp hshrink hshrink
      · -- clamp, shrink
        simp only [Interval.span, Interval.set_span, Interval.new]
        have hc : s.interval.stop - s.current_time ≤ ws := by omega
        have hc2 : ((s.interval.stop - s.current_time : Int) : ℚ) ≤ (ws : ℚ) := by
          exact_mod_cast hc
        exact le_trans hc2 hwsany
      · -- clamp, no shrink
        simp only [Interval.span, Interval.new]
        have hwh0 : (g : ℚ) / 3600 < wh := not_le.mp hshrink
        have hc : s.interval.stop - s.current_time ≤ ws := by omega
        have hc2 : ((s.interval.stop - s.current_time : Int) : ℚ) ≤ (ws : ℚ) := by
          exact_mod_cast hc
        exact le_trans hc2 (hwsle (le_trans hg36 hwh0.le))
      · -- no clamp, shrink
        simp only [Interval.span, Interval.set_span, Interval.new]
        have : (s.current_time + ws - s.current_time : ℚ) = (ws : ℚ) := by ring
        push_cast
        calc (s.current_time + ws - s.current_time : ℚ) = (ws : ℚ) := by ring
          _ ≤ _ := hwsany
      · -- no clamp, no shrink
        simp only [Interval.span, Interval.new]
        push_cast
        calc (s.current_time + g - s.current_time : ℚ) = (g : ℚ) := by ring
          _ ≤ _ := hgmax
    rw [Interval.hours]
    rw [div_le_iff (by norm_num : (0:ℚ) < 3600)]
    have hq : ((s.allocator.allocate s task_idx).span : ℚ) ≤
        3600 * max ((g : ℚ) / 3600) wh := by
      refine le_trans ?_ hbound
      exact_mod_cast hspan
    calc ((s.allocator.allocate s task_idx).span : ℚ) ≤ 3600 * max ((g : ℚ) / 3600) wh := hq
      _ = max ((g : ℚ) / 3600) wh * 3600 := by ring
  · -- window bound for empty plans
    intro hplans hghi
    unfold TaskAllocatorWithPlans.allocate
    rw [hplans]
    simp only [List.map_nil, List.foldl_nil]
    exact pre_loop_stop_le s.current_time g s.interval.stop wh hg hghi

/-- The test scheduler with its plans removed (for the empty-plans clause). -/
def emptyPlansScheduler : Scheduler :=
  { testScheduler with allocator := { granularity := 3600, plans := [] } }

/-- Witness for the amended C2 at a concrete state. -/
theorem allocate_length_window_bounds_witness :
    (emptyPlansScheduler.allocator.allocate emptyPlansScheduler 0).hours ≤
        max ((emptyPlansScheduler.allocator.granularity : ℚ) / 3600)
          ((emptyPlansScheduler.tasks.getD 0 default).volume -
            emptyPlansScheduler.get_total_task_hours 0) ∧
    (emptyPlansScheduler.allocator.allocate emptyPlansScheduler 0).stop ≤
      emptyPlansScheduler.interval.stop := by
  have h := allocate_length_window_bounds emptyPlansScheduler 0 (by decide)
  exact ⟨h.1, h.2 rfl (by norm_num [emptyPlansScheduler, testScheduler])⟩

/-- `BTreeMap::insert`: ordered insertion by `Interval.keyLt`, replacing an
entry with an equal key. -/
def Plans.insert : Plans → Interval → String → Plans
  | [], k, v => [(k, v)]
  | e :: rest, k, v =>
    if k.keyLt e.1 then (k, v) :: e :: rest
    else if k = e.1 then (k, v) :: rest
    else e :: Plans.insert rest k v

/-- `BTreeMap::remove`: drop the entry with the given key. -/
def Plans.remove (m : Plans) (k : Interval) : Plans := m.filter (fun e => e.1 ≠ k)

/-- The body of the second loop of `Plans::insert_with_overriding`: remove an
entry whose key contains `X` and re-insert its left/right remainders (each
kept unless degenerate, tested by `!=` on the endpoints). -/
def splitStep (X : Interval) (acc : Plans) (e : Interval × String) : Plans :=
  let acc1 := Plans.remove acc e.1
  let acc2 := if e.1.start ≠ X.start
    then Plans.insert acc1 (Interval.new e.1.start X.start) e.2 else acc1
  if e.1.stop ≠ X.stop
    then Plans.insert acc2 (Interval.new X.stop e.1.stop) e.2 else acc2

/-- The body of the third loop of `Plans::insert_with_overriding`: remove a
partially overlapping entry and re-insert its non-overlapping remainders
(tested by `<` / `>` on the endpoints). -/
def truncStep (X : Interval) (acc : Plans) (e : Interval × String) : Plans :=
  let acc1 := Plans.remove acc e.1
  let acc2 := if e.1.start < X.start
    then Plans.insert acc1 (Interval.new e.1.start X.start) e.2 else acc1
  if e.1.stop > X.stop
    then Plans.insert acc2 (Interval.new X.stop e.1.stop) e.2 else acc2

/-- `Plans::insert_with_overriding` (src/allocators.rs lines 65–109): remove
entries contained in `interval`; split entries containing `interval` into
their left/right remainders; truncate entries partially overlapping
`interval`; finally insert `(interval, description)`.  Each pass collects the
affected entries first and then applies its removals and insertions, exactly
as the Rust code does. -/
def Plans.insert_with_overriding (m : Plans) (interval : Interval)
    (description : String) : Plans :=
  let contained := (m.map Prod.fst).filter (fun k => interval.contains k)
  let m1 := contained.foldl Plans.remove m
  let icl := m1.filter (fun e => e.1.contains interval)
  let m2 := icl.foldl (splitStep interval) m1
  let pcl := m2.filter (fun e => interval.partly_intercepts e.1)
  let m3 := pcl.foldl (truncStep interval) m2
  Plans.insert m3 interval description

lemma intercepts_symm {a b : Interval} (h : a.intercepts b) : b.intercepts a := by
  unfold Interval.intercepts at *; omega

lemma keyLt_ne {a b : Interval} (h : a.keyLt b) : a ≠ b := by
  intro h2
  rw [h2] at h
  simp only [Interval.keyLt] at h
  omega

lemma keyLt_trans {a b c : Interval} (h1 : a.keyLt b) (h2 : b.keyLt c) : a.keyLt c := by
  unfold Interval.keyLt at *; omega

lemma keyLt_connex {a b : Interval} (h1 : ¬ a.keyLt b) (h2 : a ≠ b) : b.keyLt a := by
  have h3 : ¬ (a.start = b.start ∧ a.stop = b.stop) := by
    intro ⟨h4, h5⟩
    exact h2 (by cases a; cases b; simp_all)
  simp only [Interval.keyLt] at h1 ⊢
  omega

/-- `p` lies inside `k` (as a half-open range). -/
def subOf (p k : Interval) : Prop := k.start ≤ p.start ∧ p.stop ≤ k.stop

lemma subOf_refl (p : Interval) : subOf p p := ⟨le_refl _, le_refl _⟩

lemma intercepts_of_sub {p q k k2 : Interval} (h : p.intercepts q)
    (h1 : subOf p k) (h2 : subOf q k2) : k.intercepts k2 := by
  unfold Interval.intercepts subOf at *; omega

lemma pairwise_disjoint_forall {S : List Interval}
    (h : S.Pairwise fun a b => ¬ a.intercepts b) {a b : Interval}
    (ha : a ∈ S) (hb : b ∈ S) (hne : a ≠ b) : ¬ a.intercepts b := by
  have hsym : Symmetric (fun a b : Interval => ¬ a.intercepts b) := by
    intro x y hxy hyx
    exact hxy (intercepts_symm hyx)
  exact h.forall hsym ha hb hne

lemma Plans.mem_insert {m : Plans} {k : Interval} {v : String} {e : Interval × String}
    (h : e ∈ Plans.insert m k v) : e = (k, v) ∨ e ∈ m := by
  induction m with
  | nil => simpa [Plans.insert] using h
  | cons f rest ih =>
    unfold Plans.insert at h
    split_ifs at h with h1 h2
    · rcases List.mem_cons.mp h with h3 | h3
      · exact Or.inl h3
      · exact Or.inr h3
    · rcases List.mem_cons.mp h with h3 | h3
      · exact Or.inl h3
      · exact Or.inr (List.mem_cons_of_mem f h3)
    · rcases List.mem_cons.mp h with h3 | h3
      · exact Or.inr (h3 ▸ List.mem_cons_self f rest)
      · rcases ih h3 with h4 | h4
        · exact Or.inl h4
        · exact Or.inr (List.mem_cons_of_mem f h4)

lemma Plans.pairwise_insert {R : Interval × String → Interval × String → Prop}
    {m : Plans} {k : Interval} {v : String}
    (h : m.Pairwise R) (hk : ∀ e ∈ m, R (k, v) e ∧ R e (k, v)) :
    (Plans.insert m k v).Pairwise R := by
  induction m with
  | nil => simp [Plans.insert]
  | cons f rest ih =>
    have hf := List.pairwise_cons.mp h
    unfold Plans.insert
    split_ifs with h1 h2
    · refine List.pairwise_cons.mpr ⟨?_, h⟩
      intro e he
      exact (hk e he).1
    · refine List.pairwise_cons.mpr ⟨?_, hf.2⟩
      intro e he
      exact (hk e (List.mem_cons_of_mem f he)).1
    · refine List.pairwise_cons.mpr ⟨?_, ih hf.2 ?_⟩
      · intro e he
        rcases Plans.mem_insert he with h3 | h3
        · rw [h3]; exact (hk f (List.mem_cons_self f rest)).2
        · exact hf.1 e h3
      · intro e he
        exact hk e (List.mem_cons_of_mem f he)

lemma Plans.sorted_insert {m : Plans} {k : Interval} {v : String}
    (h : PlansSorted m) : PlansSorted (Plans.insert m k v) := by
  induction m with
  | nil => simp [Plans.insert, PlansSorted]
  | cons f rest ih =>
    have hf := List.pairwise_cons.mp h
    unfold Plans.insert
    split_ifs with h1 h2
    · refine List.pairwise_cons.mpr ⟨?_, h⟩
      intro e he
      rcases List.mem_cons.mp he with h3 | h3
      · rw [h3]; exact h1
      · exact keyLt_trans h1 (hf.1 e h3)
    · refine List.pairwise_cons.mpr ⟨?_, hf.2⟩
      intro e he
      show Interval.keyLt k e.1
      rw [h2]
      exact hf.1 e he
    · refine List.pairwise_cons.mpr ⟨?_, ih hf.2⟩
      intro e he
      rcases Plans.mem_insert he with h3 | h3
      · rw [h3]
        exact keyLt_connex h1 h2
      · exact hf.1 e h3

lemma Plans.remove_sublist (m : Plans) (k : Interval) :
    List.Sublist (Plans.remove m k) m :=
  List.filter_sublist m

lemma Plans.mem_remove {m : Plans} {k : Interval} {e : Interval × String}
    (h : e ∈ Plans.remove m k) : e ∈ m ∧ e.1 ≠ k := by
  have := List.mem_filter.mp h
  exact ⟨this.1, by simpa using this.2⟩

lemma Plans.foldl_remove_sublist (l : List Interval) (m : Plans) :
    List.Sublist (l.foldl Plans.remove m) m := by
  induction l generalizing m with
  | nil => simp
  | cons k rest ih =>
    simp only [List.foldl_cons]
    exact (ih (Plans.remove m k)).trans (Plans.remove_sublist m k)

lemma Plans.mem_foldl_remove {l : List Interval} {m : Plans} {e : Interval × String}
    (h : e ∈ l.foldl Plans.remove m) : e ∈ m ∧ e.1 ∉ l := by
  induction l generalizing m with
  | nil => simpa using h
  | cons k rest ih =>
    simp only [List.foldl_cons] at h
    have h2 := ih h
    have h3 := Plans.mem_remove h2.1
    refine ⟨h3.1, ?_⟩
    intro hmem
    rcases List.mem_cons.mp hmem with h4 | h4
    · exact h3.2 h4
    · exact h2.2 h4

/-- Common shape of `splitStep` and `truncStep`: remove the key and
conditionally insert the left and right remainder pieces. -/
def carve (acc : Plans) (k : Interval) (v : String) (X : Interval) (g1 g2 : Bool) : Plans :=
  let acc1 := Plans.remove acc k
  let acc2 := if g1 then Plans.insert acc1 (Interval.new k.start X.start) v else acc1
  if g2 then Plans.insert acc2 (Interval.new X.stop k.stop) v else acc2

lemma splitStep_eq_carve (X : Interval) (acc : Plans) (e : Interval × String) :
    splitStep X acc e
      = carve acc e.1 e.2 X (decide (e.1.start ≠ X.start)) (decide (e.1.stop ≠ X.stop)) := by
  unfold splitStep carve
  by_cases h1 : e.1.start = X.start <;> by_cases h2 : e.1.stop = X.stop <;> simp [h1, h2]

lemma truncStep_eq_carve (X : Interval) (acc : Plans) (e : Interval × String) :
    truncStep X acc e
      = carve acc e.1 e.2 X (decide (e.1.start < X.start)) (decide (X.stop < e.1.stop)) := by
  unfold truncStep carve
  by_cases h1 : e.1.start < X.start <;> by_cases h2 : X.stop < e.1.stop <;> simp [h1, h2]

lemma not_int_left_piece (X : Interval) (a : Int) :
    ¬ X.intercepts ⟨a, X.start⟩ := by
  simp [Interval.intercepts]

lemma not_int_right_piece (X : Interval) (b : Int) :
    ¬ X.intercepts ⟨X.stop, b⟩ := by
  simp [Interval.intercepts]

lemma carve_mem {acc : Plans} {k : Interval} {v : String} {X : Interval} {g1 g2 : Bool}
    {e : Interval × String} (h : e ∈ carve acc k v X g1 g2) :
    (e ∈ acc ∧ e.1 ≠ k) ∨ e = (⟨k.start, X.start⟩, v) ∨ e = (⟨X.stop, k.stop⟩, v) := by
  unfold carve at h
  cases g1 <;> cases g2 <;> simp only [Bool.false_eq_true, if_true, if_false] at h
  · exact Or.inl (Plans.mem_remove h)
  · rcases Plans.mem_insert h with h2 | h2
    · exact Or.inr (Or.inr h2)
    · exact Or.inl (Plans.mem_remove h2)
  · rcases Plans.mem_insert h with h2 | h2
    · exact Or.inr (Or.inl h2)
    · exact Or.inl (Plans.mem_remove h2)
  · rcases Plans.mem_insert h with h2 | h2
    · exact Or.inr (Or.inr h2)
    · rcases Plans.mem_insert h2 with h3 | h3
      · exact Or.inr (Or.inl h3)
      · exact Or.inl (Plans.mem_remove h3)

lemma carve_sorted {acc : Plans} {k : Interval} {v : String} {X : Interval} {g1 g2 : Bool}
    (hsort : PlansSorted acc) : PlansSorted (carve acc k v X g1 g2) := by
  unfold carve
  have h1 : PlansSorted (Plans.remove acc k) :=
    List.Pairwise.sublist (Plans.remove_sublist acc k) hsort
  split_ifs <;>
    first
      | exact Plans.sorted_insert (Plans.sorted_insert h1)
      | exact Plans.sorted_insert h1
      | exact h1

lemma carve_disjoint {S : List Interval} (SD : S.Pairwise fun a b => ¬ a.intercepts b)
    {X : Interval} (hX : X.start ≤ X.stop)
    {k : Interval} (hkS : k ∈ S) (hp1 : X.start ≤ k.stop) (hp2 : k.start ≤ X.stop)
    {acc : Plans} {v : String} {g1 g2 : Bool}
    (hdisj : PlansDisjoint acc)
    (hhome : ∀ e ∈ acc, e.1 ≠ k → ∃ k0, k0 ∈ S ∧ subOf e.1 k0 ∧ k0 ≠ k) :
    PlansDisjoint (carve acc k v X g1 g2) := by
  have hsub1 : subOf (Interval.new k.start X.start) k := ⟨le_refl _, hp1⟩
  have hsub2 : subOf (Interval.new X.stop k.stop) k := ⟨hp2, le_refl _⟩
  have hdisj1 : PlansDisjoint (Plans.remove acc k) :=
    List.Pairwise.sublist (Plans.remove_sublist acc k) hdisj
  have key : ∀ (p : Interval), subOf p k → ∀ e ∈ Plans.remove acc k,
      ¬ p.intercepts e.1 ∧ ¬ e.1.intercepts p := by
    intro p hp e he
    have hm := Plans.mem_remove he
    obtain ⟨k0, hk0S, hk0sub, hk0ne⟩ := hhome e hm.1 hm.2
    have hkk0 : ¬ k.intercepts k0 :=
      pairwise_disjoint_forall SD hkS hk0S (fun h => hk0ne h.symm)
    constructor
    · intro hint
      exact hkk0 (intercepts_of_sub hint hp hk0sub)
    · intro hint
      exact hkk0 (intercepts_symm (intercepts_of_sub hint hk0sub hp))
  have hpp : ¬ (Interval.new X.stop k.stop).intercepts (Interval.new k.start X.start) ∧
      ¬ (Interval.new k.start X.start).intercepts (Interval.new X.stop k.stop) := by
    constructor <;> simp [Interval.intercepts, Interval.new] <;> omega
  unfold carve
  cases g1 <;> cases g2 <;> simp only [Bool.false_eq_true, if_true, if_false]
  · exact hdisj1
  · refine Plans.pairwise_insert hdisj1 ?_
    intro e he
    exact ⟨(key _ hsub2 e he).1, (key _ hsub2 e he).2⟩
  · refine Plans.pairwise_insert hdisj1 ?_
    intro e he
    exact ⟨(key _ hsub1 e he).1, (key _ hsub1 e he).2⟩
  · refine Plans.pairwise_insert (Plans.pairwise_insert hdisj1 ?_) ?_
    · intro e he
      exact ⟨(key _ hsub1 e he).1, (key _ hsub1 e he).2⟩
    · intro e he
      rcases Plans.mem_insert he with h2 | h2
      · rw [h2]; exact ⟨hpp.1, hpp.2⟩
      · exact ⟨(key _ hsub2 e h2).1, (key _ hsub2 e h2).2⟩

lemma splitStep_fold (X : Interval) (hX : X.start ≤ X.stop) (S : List Interval)
    (SD : S.Pairwise fun a b => ¬ a.intercepts b) (M1 : Plans) :
    ∀ (todo : List (Interval × String)) (cur : Plans),
      (∀ e ∈ todo, e.1 ∈ S ∧ e.1.contains X) →
      (todo.Pairwise fun a b => a.1 ≠ b.1) →
      PlansSorted cur →
      PlansDisjoint cur →
      (∀ e ∈ cur, ∃ k0, k0 ∈ S ∧ subOf e.1 k0 ∧
          (e.1 = k0 ∨ (k0 ∉ todo.map Prod.fst ∧ k0.contains X))) →
      (∀ e ∈ cur, X.contains e.1 → ¬ X.intercepts e.1) →
      (∀ e ∈ cur, e.1.contains X → e.1 ∈ todo.map Prod.fst ∨ ¬ X.intercepts e.1) →
      (∀ e ∈ cur, X.intercepts e.1 → e ∈ M1) →
      PlansSorted (todo.foldl (splitStep X) cur) ∧
      PlansDisjoint (todo.foldl (splitStep X) cur) ∧
      (∀ e ∈ todo.foldl (splitStep X) cur, ∃ k0, k0 ∈ S ∧ subOf e.1 k0 ∧
          (e.1 = k0 ∨ k0.contains X)) ∧
      (∀ e ∈ todo.foldl (splitStep X) cur, X.contains e.1 → ¬ X.intercepts e.1) ∧
      (∀ e ∈ todo.foldl (splitStep X) cur, e.1.contains X → ¬ X.intercepts e.1) ∧
      (∀ e ∈ todo.foldl (splitStep X) cur, X.intercepts e.1 → e ∈ M1) := by
  intro todo
  induction todo with
  | nil =>
    intro cur _ _ hsort hdisj hhome h3 h4 h5
    simp only [List.foldl_nil]
    refine ⟨hsort, hdisj, ?_, h3, ?_, h5⟩
    · intro e he
      obtain ⟨k0, hk0S, hsub, hor⟩ := hhome e he
      refine ⟨k0, hk0S, hsub, ?_⟩
      rcases hor with h | h
      · exact Or.inl h
      · exact Or.inr h.2
    · intro e he hc
      rcases h4 e he hc with h | h
      · simp at h
      · exact h
  | cons kv rest ih =>
    intro cur ht htnd hsort hdisj hhome h3 h4 h5
    simp only [List.foldl_cons]
    rw [splitStep_eq_carve]
    obtain ⟨hkS, hkc⟩ := ht kv (List.mem_cons_self kv rest)
    have hp1 : X.start ≤ kv.1.stop := le_trans hX hkc.2
    have hp2 : kv.1.start ≤ X.stop := le_trans hkc.1 hX
    have htnd' := List.pairwise_cons.mp htnd
    have hknotrest : kv.1 ∉ rest.map Prod.fst := by
      intro hmem
      obtain ⟨f, hf, hf2⟩ := List.mem_map.mp hmem
      exact (htnd'.1 f hf) hf2.symm
    have hhome' : ∀ e ∈ cur, e.1 ≠ kv.1 → ∃ k0, k0 ∈ S ∧ subOf e.1 k0 ∧ k0 ≠ kv.1 := by
      intro e he hne
      obtain ⟨k0, hk0S, hsub, hor⟩ := hhome e he
      refine ⟨k0, hk0S, hsub, ?_⟩
      rcases hor with h | h
      · rw [← h]; exact hne
      · intro h2
        refine h.1 ?_
        rw [h2]
        simp
    refine ih (carve cur kv.1 kv.2 X _ _)
      (fun e he => ht e (List.mem_cons_of_mem kv he))
      htnd'.2
      (carve_sorted hsort)
      (carve_disjoint SD hX hkS hp1 hp2 hdisj hhome')
      ?_ ?_ ?_ ?_
    · -- homes
      intro e he
      rcases carve_mem he with ⟨hin, hne⟩ | h | h
      · obtain ⟨k0, hk0S, hsub, hor⟩ := hhome e hin
        refine ⟨k0, hk0S, hsub, ?_⟩
        rcases hor with h | h
        · exact Or.inl h
        · refine Or.inr ⟨?_, h.2⟩
          intro hmem
          refine h.1 ?_
          simp only [List.map_cons, List.mem_cons]
          exact Or.inr hmem
      · subst h
        exact ⟨kv.1, hkS, ⟨le_refl _, hp1⟩, Or.inr ⟨hknotrest, hkc⟩⟩
      · subst h
        exact ⟨kv.1, hkS, ⟨hp2, le_refl _⟩, Or.inr ⟨hknotrest, hkc⟩⟩
    · -- contains X e → not intercepts
      intro e he hc
      rcases carve_mem he with ⟨hin, _⟩ | h | h
      · exact h3 e hin hc
      · subst h; exact not_int_left_piece X _
      · subst h; exact not_int_right_piece X _
    · -- e contains X → still in todo or not intercepts
      intro e he hc
      rcases carve_mem he with ⟨hin, hne⟩ | h | h
      · rcases h4 e hin hc with hmem | hni
        · simp only [List.map_cons, List.mem_cons] at hmem
          rcases hmem with h2 | h2
          · exact absurd h2 hne
          · exact Or.inl h2
        · exact Or.inr hni
      · subst h; exact Or.inr (not_int_left_piece X _)
      · subst h; exact Or.inr (not_int_right_piece X _)
    · -- intercepts X → in M1
      intro e he hi
      rcases carve_mem he with ⟨hin, _⟩ | h | h
      · exact h5 e hin hi
      · subst h; exact absurd hi (not_int_left_piece X _)
      · subst h; exact absurd hi (not_int_right_piece X _)

lemma truncStep_fold (X : Interval) (hX : X.start ≤ X.stop) (S : List Interval)
    (SD : S.Pairwise fun a b => ¬ a.intercepts b) :
    ∀ (todo : List (Interval × String)) (cur : Plans),
      (∀ e ∈ todo, e.1 ∈ S ∧ X.intercepts e.1) →
      (todo.Pairwise fun a b => a.1 ≠ b.1) →
      PlansSorted cur →
      PlansDisjoint cur →
      (∀ e ∈ cur, ∃ k0, k0 ∈ S ∧ subOf e.1 k0 ∧
          (e.1 = k0 ∨ k0 ∉ todo.map Prod.fst)) →
      (∀ e ∈ cur, X.intercepts e.1 → e.1 ∈ todo.map Prod.fst) →
      PlansSorted (todo.foldl (truncStep X) cur) ∧
      PlansDisjoint (todo.foldl (truncStep X) cur) ∧
      (∀ e ∈ todo.foldl (truncStep X) cur, ¬ X.intercepts e.1) := by
  intro todo
  induction todo with
  | nil =>
    intro cur _ _ hsort hdisj _ h5
    simp only [List.foldl_nil]
    refine ⟨hsort, hdisj, ?_⟩
    intro e he hi
    have := h5 e he hi
    simp at this
  | cons kv rest ih =>
    intro cur ht htnd hsort hdisj hhome h5
    simp only [List.foldl_cons]
    rw [truncStep_eq_carve]
    obtain ⟨hkS, hki⟩ := ht kv (List.mem_cons_self kv rest)
    have hp1 : X.start ≤ kv.1.stop := le_of_lt hki.1
    have hp2 : kv.1.start ≤ X.stop := le_of_lt hki.2
    have htnd' := List.pairwise_cons.mp htnd
    have hknotrest : kv.1 ∉ rest.map Prod.fst := by
      intro hmem
      obtain ⟨f, hf, hf2⟩ := List.mem_map.mp hmem
      exact (htnd'.1 f hf) hf2.symm
    have hhome' : ∀ e ∈ cur, e.1 ≠ kv.1 → ∃ k0, k0 ∈ S ∧ subOf e.1 k0 ∧ k0 ≠ kv.1 := by
      intro e he hne
      obtain ⟨k0, hk0S, hsub, hor⟩ := hhome e he
      refine ⟨k0, hk0S, hsub, ?_⟩
      rcases hor with h | h
      · rw [← h]; exact hne
      · intro h2
        refine h ?_
        rw [h2]
        simp
    refine ih (carve cur kv.1 kv.2 X _ _)
      (fun e he => ht e (List.mem_cons_of_mem kv he))
      htnd'.2
      (carve_sorted hsort)
      (carve_disjoint SD hX hkS hp1 hp2 hdisj hhome')
      ?_ ?_
    · -- homes
      intro e he
      rcases carve_mem he with ⟨hin, hne⟩ | h | h
      · obtain ⟨k0, hk0S, hsub, hor⟩ := hhome e hin
        refine ⟨k0, hk0S, hsub, ?_⟩
        rcases hor with h | h
        · exact Or.inl h
        · refine Or.inr ?_
          intro hmem
          refine h ?_
          simp only [List.map_cons, List.mem_cons]
          exact Or.inr hmem
      · subst h
        exact ⟨kv.1, hkS, ⟨le_refl _, hp1⟩, Or.inr hknotrest⟩
      · subst h
        exact ⟨kv.1, hkS, ⟨hp2, le_refl _⟩, Or.inr hknotrest⟩
    · -- intercepts X → still in todo
      intro e he hi
      rcases carve_mem he with ⟨hin, hne⟩ | h | h
      · have := h5 e hin hi
        simp only [List.map_cons, List.mem_cons] at this
        rcases this with h2 | h2
        · exact absurd h2 hne
        · exact h2
      · subst h; exact absurd hi (not_int_left_piece X _)
      · subst h; exact absurd hi (not_int_right_piece X _)

lemma insert_with_overriding_sorted_disjoint (m : Plans) (X : Interval) (d : String)
    (hsort : PlansSorted m) (hdisj : PlansDisjoint m) (hX : X.start ≤ X.stop) :
    PlansSorted (m.insert_with_overriding X d) ∧
    PlansDisjoint (m.insert_with_overriding X d) := by
  have SD : (m.map Prod.fst).Pairwise fun a b => ¬ a.intercepts b :=
    List.pairwise_map.mpr hdisj
  set contained := (m.map Prod.fst).filter (fun k => X.contains k) with hcontained
  set m1 := contained.foldl Plans.remove m with hm1def
  set icl := m1.filter (fun e => e.1.contains X) with hicldef
  set m2 := icl.foldl (splitStep X) m1 with hm2def
  set pcl := m2.filter (fun e => X.partly_intercepts e.1) with hpcldef
  set m3 := pcl.foldl (truncStep X) m2 with hm3def
  have hres : Plans.insert_with_overriding m X d = Plans.insert m3 X d := rfl
  rw [hres]
  have hm1sub : List.Sublist m1 m := Plans.foldl_remove_sublist contained m
  have hm1sort : PlansSorted m1 := List.Pairwise.sublist hm1sub hsort
  have hm1disj : PlansDisjoint m1 := List.Pairwise.sublist hm1sub hdisj
  have hA : ∀ e ∈ m1, ¬ X.contains e.1 := by
    intro e he hc
    have h2 := Plans.mem_foldl_remove (hm1def ▸ he)
    refine h2.2 ?_
    rw [hcontained]
    exact List.mem_filter.mpr ⟨List.mem_map_of_mem Prod.fst h2.1, by simpa using hc⟩
  have hticl : ∀ e ∈ icl, e.1 ∈ m.map Prod.fst ∧ e.1.contains X := by
    intro e he
    have h2 := List.mem_filter.mp (hicldef ▸ he)
    exact ⟨List.mem_map_of_mem Prod.fst (hm1sub.subset h2.1), by simpa using h2.2⟩
  have hiclsort : icl.Pairwise fun a b => a.1.keyLt b.1 :=
    List.Pairwise.sublist (List.filter_sublist m1) hm1sort
  have hiclnd : icl.Pairwise fun a b => a.1 ≠ b.1 :=
    hiclsort.imp fun h => keyLt_ne h
  obtain ⟨hm2sort, hm2disj, hm2home, hm2c1, hm2c2, hm2mem⟩ :=
    splitStep_fold X hX (m.map Prod.fst) SD m1 icl m1 hticl hiclnd hm1sort hm1disj
      (fun e he => ⟨e.1, List.mem_map_of_mem Prod.fst (hm1sub.subset he),
        subOf_refl _, Or.inl rfl⟩)
      (fun e he hc => absurd hc (hA e he))
      (fun e he hc => Or.inl (List.mem_map_of_mem Prod.fst
        (List.mem_filter.mpr ⟨he, by simpa using hc⟩)))
      (fun e he _ => he)
  have htpcl : ∀ e ∈ pcl, e.1 ∈ m.map Prod.fst ∧ X.intercepts e.1 := by
    intro e he
    have h2 := List.mem_filter.mp (hpcldef ▸ he)
    have hp : X.partly_intercepts e.1 := by simpa using h2.2
    exact ⟨List.mem_map_of_mem Prod.fst (hm1sub.subset (hm2mem e h2.1 hp.1)), hp.1⟩
  have hpclsort : pcl.Pairwise fun a b => a.1.keyLt b.1 :=
    List.Pairwise.sublist (List.filter_sublist m2) hm2sort
  have hpclnd : pcl.Pairwise fun a b => a.1 ≠ b.1 :=
    hpclsort.imp fun h => keyLt_ne h
  obtain ⟨hm3sort, hm3disj, hm3ni⟩ :=
    truncStep_fold X hX (m.map Prod.fst) SD pcl m2 htpcl hpclnd hm2sort hm2disj
      (by
        intro e he
        obtain ⟨k0, hk0S, hsub, hor⟩ := hm2home e he
        refine ⟨k0, hk0S, hsub, ?_⟩
        rcases hor with h | h
        · exact Or.inl h
        · refine Or.inr ?_
          intro hmem
          obtain ⟨f, hf, hf2⟩ := List.mem_map.mp hmem
          have hfm : f ∈ m2.filter (fun e => X.partly_intercepts e.1) := by
            rw [← hpcldef]; exact hf
          have hp : X.partly_intercepts f.1 :=
            of_decide_eq_true (List.mem_filter.mp hfm).2
          exact hp.2.2 (hf2 ▸ h))
      (by
        intro e he hi
        have hnc1 : ¬ X.contains e.1 := fun hc => (hm2c1 e he hc) hi
        have hnc2 : ¬ e.1.contains X := fun hc => (hm2c2 e he hc) hi
        refine List.mem_map_of_mem Prod.fst ?_
        rw [hpcldef]
        exact List.mem_filter.mpr ⟨he, by simp [Interval.partly_intercepts]; exact ⟨hi, hnc1, hnc2⟩⟩)
  refine ⟨Plans.sorted_insert hm3sort, Plans.pairwise_insert hm3disj ?_⟩
  intro e he
  exact ⟨hm3ni e he, fun hi => hm3ni e he (intercepts_symm hi)⟩

/-- C4.  If a plan set (with the `BTreeMap` structural invariant, keys
strictly ascending) has pairwise non-intersecting entries, then after any
single `Plans::insert_with_overriding` of an interval (satisfying the
`Interval` invariant `start <= end` of spec §3) with any description, the
entries are still pairwise non-intersecting; and starting from the empty set
the invariant holds after every sequence of such inserts. -/
theorem insert_with_overriding_preserves_disjoint (m : Plans) (X : Interval) (d : String)
    (hsort : PlansSorted m) (hdisj : PlansDisjoint m) (hX : X.start ≤ X.stop) :
    PlansDisjoint (m.insert_with_overriding X d) ∧
    ∀ (l : List (Interval × String)), (∀ p ∈ l, p.1.start ≤ p.1.stop) →
      PlansDisjoint (l.foldl (fun acc p => Plans.insert_with_overriding acc p.1 p.2) []) := by
  have gen : ∀ (l : List (Interval × String)) (acc : Plans),
      PlansSorted acc → PlansDisjoint acc → (∀ p ∈ l, p.1.start ≤ p.1.stop) →
      PlansSorted (l.foldl (fun acc p => Plans.insert_with_overriding acc p.1 p.2) acc) ∧
      PlansDisjoint (l.foldl (fun acc p => Plans.insert_with_overriding acc p.1 p.2) acc) := by
    intro l
    induction l with
    | nil =>
      intro acc h1 h2 _
      simpa using ⟨h1, h2⟩
    | cons p rest ih =>
      intro acc h1 h2 h3
      simp only [List.foldl_cons]
      have h4 := insert_with_overriding_sorted_disjoint acc p.1 p.2 h1 h2
        (h3 p (List.mem_cons_self p rest))
      exact ih _ h4.1 h4.2 (fun q hq => h3 q (List.mem_cons_of_mem p hq))
  refine ⟨(insert_with_overriding_sorted_disjoint m X d hsort hdisj hX).2, ?_⟩
  intro l hl
  exact (gen l [] List.Pairwise.nil List.Pairwise.nil hl).2

/-- Witness for C4: the spec §8 override scenario, as a single insert into a
one-entry set and as a two-insert sequence from the empty set. -/
theorem insert_with_overriding_preserves_disjoint_witness :
    PlansDisjoint (Plans.insert_with_overriding [(⟨0, 32400⟩, "sleep")] ⟨7200, 10800⟩ "call") ∧
    PlansDisjoint (([((⟨0, 32400⟩ : Interval), "sleep"), (⟨7200, 10800⟩, "call")]).foldl
      (fun acc p => Plans.insert_with_overriding acc p.1 p.2) []) := by
  have h := insert_with_overriding_preserves_disjoint [(⟨0, 32400⟩, "sleep")] ⟨7200, 10800⟩
    "call" (by decide) (by decide) (by decide)
  exact ⟨h.1, h.2 _ (by decide)⟩

/-- C9.  Inserting `[b, c)` over a single containing entry `[a, d)` (with
`a < b <= c < d`) yields exactly the three entries `[a, b) -> s`,
`[b, c) -> t`, `[c, d) -> s`. -/
theorem insert_with_overriding_splits_containing_entry
    (a b c d : Int) (s t : String) (hab : a < b) (hbc : b ≤ c) (hcd : c < d) :
    Plans.insert_with_overriding [(⟨a, d⟩, s)] ⟨b, c⟩ t
      = [(⟨a, b⟩, s), (⟨b, c⟩, t), (⟨c, d⟩, s)] := by
  have h1 : ¬ (b ≤ a ∧ d ≤ c) := by omega
  have h2 : a ≤ b := by omega
  have h3 : c ≤ d := by omega
  have h4 : a ≠ b := by omega
  have h5 : d ≠ c := by omega
  have h6 : ¬ (c < a) := by omega
  have h7 : c ≠ a := by omega
  have h8 : ¬ (b < a) := by omega
  have h9 : b ≠ a := by omega
  have h10 : b < c ∨ (b = c ∧ c < d) := by omega
  simp [Plans.insert_with_overriding, splitStep, truncStep, Plans.remove, Plans.insert,
    Interval.contains, Interval.partly_intercepts, Interval.intercepts, Interval.keyLt,
    Interval.new, h1, h2, h3, h4, h5, h6, h7, h8, h9, h10]

/-- Witness for C9: the concrete spec §8 scenario, seconds from Monday 00:00:
inserting `[02:00, 03:00) "call"` over `[00:00, 09:00) "sleep"`. -/
theorem insert_with_overriding_splits_containing_entry_witness :
    Plans.insert_with_overriding [(⟨0, 32400⟩, "sleep")] ⟨7200, 10800⟩ "call"
      = [(⟨0, 7200⟩, "sleep"), (⟨7200, 10800⟩, "call"), (⟨10800, 32400⟩, "sleep")] :=
  insert_with_overriding_splits_containing_entry 0 7200 10800 32400 "sleep" "call"
    (by decide) (by decide) (by decide)

-- The plan-override scenario of spec §8, replayed on the model:
-- `[Mon 00:00, 09:00) "sleep"` then `[Mon 02:00, 03:00) "call"`.
example :
    Plans.insert_with_overriding [(⟨0, 32400⟩, "sleep")] ⟨7200, 10800⟩ "call"
      = [(⟨0, 7200⟩, "sleep"), (⟨7200, 10800⟩, "call"), (⟨10800, 32400⟩, "sleep")] := by
  decide

/-- The `Heuristic` function-pointer type, as called by `Scheduler::next`
(`heuristic(self, task_idx)`, src/scheduler.rs line 174). -/
abbrev Heuristic := Scheduler → Nat → ℚ

/-- `f32::EPSILON` (2⁻²³), the tolerance used by the `dependency` heuristic. -/
def f32Epsilon : ℚ := 1 / 2 ^ 23

/-- The `volume` heuristic (src/heuristics.rs): the task's remaining work
hours, which is negative for an over-committed task. -/
def heuristicVolume : Heuristic := fun s task_idx =>
  (s.tasks.getD task_idx default).volume - s.get_total_task_hours task_idx

/-- A task's combined score in `Scheduler::next`: the entry of
`heuristic_scores` starts at 1.0 and is multiplied by each registered
heuristic's output in turn. -/
def combinedScore (hs : List Heuristic) (s : Scheduler) (task_idx : Nat) : ℚ :=
  hs.foldl (fun acc h => acc * h s task_idx) 1

/-- The `heuristic_scores` vector of `Scheduler::next` (the code iterates
heuristic-outer/task-inner; entry `i` ends up as the fold of all heuristics
at task `i`). -/
def heuristicScores (hs : List Heuristic) (s : Scheduler) : List ℚ :=
  (List.range s.tasks.length).map (combinedScore hs s)

/-- One comparison step of
`min_by(|(_, a), (_, b)| a.partial_cmp(b).unwrap_or(Less).reverse())`:
the accumulator is kept unless its score is strictly smaller (so the first
maximal element wins). -/
def pickMax (x y : Nat × ℚ) : Nat × ℚ := if x.2 < y.2 then y else x

/-- The `min_by(...).expect(...).0` selection of `Scheduler::next`. -/
def selectIdx (scores : List ℚ) : Nat :=
  match scores.enum with
  | [] => 0
  | x :: xs => (xs.foldl pickMax x).1

/-- `Scheduler::next` (src/scheduler.rs lines 165–194).  The function-pointer
list `heuristics` is passed alongside the state; the returned pair carries
the `Option<(TaskIdx, Interval)>` result and the mutated state. -/
def Scheduler.next (s : Scheduler) (hs : List Heuristic) :
    Option (Nat × Interval) × Scheduler :=
  if s.current_time ≥ s.interval.stop then (none, s)
  else
    let scores := heuristicScores hs s
    if scores.sum = 0 then (none, s)
    else
      let idx := selectIdx scores
      let interval := s.allocator.allocate s idx
      (some (idx, interval), { s with current_time := interval.stop })

/-- `max_by_key(|i| i.end)` over a task's intervals (ties keep the later
element, as Rust's `max_by_key` does). -/
def maxByEnd (l : List Interval) : Option Interval :=
  l.foldl (fun acc i => match acc with
    | none => some i
    | some a => if a.stop ≤ i.stop then some i else some a) none

/-- Index of the interval `iter_mut().max_by_key(|i| i.end)` refers to (the
last maximal element). -/
def argmaxEndIdx (l : List Interval) : Nat :=
  (l.enum.foldl (fun acc x => match acc with
    | none => some x
    | some a => if a.2.stop ≤ x.2.stop then some x else some a) none).elim 0 Prod.fst

/-- `Scheduler::schedule_task` (src/scheduler.rs lines 138–160): if some
task's latest-ending interval ends exactly at `interval.start` and that task
is `task_idx`, extend that interval's end; otherwise push `interval` onto
`task_idx`'s list. -/
def Scheduler.schedule_task (s : Scheduler) (task_idx : Nat) (interval : Interval) :
    Scheduler :=
  match s.inner.findIdx? (fun intervals =>
    match maxByEnd intervals with
    | none => false
    | some li => li.stop = interval.start) with
  | none =>
    { s with inner := s.inner.modify (fun l => l ++ [interval]) task_idx }
  | some last_task =>
    if last_task ≠ task_idx then
      { s with inner := s.inner.modify (fun l => l ++ [interval]) task_idx }
    else
      let extend : List Interval → List Interval := fun l =>
        l.set (argmaxEndIdx l) ⟨(l.getD (argmaxEndIdx l) default).start, interval.stop⟩
      { s with inner := s.inner.modify extend task_idx }

/-- `Scheduler::new` (src/scheduler.rs lines 121–130). -/
def Scheduler.new (allocator : TaskAllocatorWithPlans) (tasks : List Task)
    (interval : Interval) : Scheduler :=
  { inner := List.replicate tasks.length []
    tasks := tasks
    allocator := allocator
    interval := interval
    current_time := interval.start }

/-- `Scheduler::try_from(SchedulerConfig)` (src/scheduler.rs lines 23–47) on
an already-parsed configuration (string parsing, the only error source in the
code, is abstracted away): the interval and allocator are built and
`Ok(Scheduler::new(..))` is returned with no validation of the granularity or
of the window. -/
def Scheduler.try_from (granularity : Int) (start stop : Int) (tasks : List Task)
    (plans : Plans) : Except String Scheduler :=
  let interval := Interval.new start stop
  let allocator : TaskAllocatorWithPlans := { granularity := granularity, plans := plans }
  Except.ok (Scheduler.new allocator tasks interval)

/-- `Scheduler::get_missed_deadlines_tasks` (src/scheduler.rs lines 235–242):
the indices whose remaining volume is *nonzero* (`!= 0.0`). -/
def Scheduler.get_missed_deadlines_tasks (s : Scheduler) : List Nat :=
  ((s.tasks.enum).filter
    (fun x => x.2.volume - s.get_total_task_hours x.1 ≠ 0)).map Prod.fst

/-- C7 (code bug).  `Scheduler::try_from` performs no construction-time
validation: a configuration whose granularity parses to a zero or negative
span, or whose window has `start >= end`, still yields `Ok(scheduler)`,
contrary to the spec's demand that degenerate configurations be rejected at
construction time. -/
theorem try_from_accepts_degenerate_config :
    (Scheduler.try_from 0 3600 3600 [] []
      = Except.ok (Scheduler.new ⟨0, []⟩ [] ⟨3600, 3600⟩)) ∧
    (Scheduler.try_from (-3600) 0 86400 [] []
      = Except.ok (Scheduler.new ⟨-3600, []⟩ [] ⟨0, 86400⟩)) ∧
    (Scheduler.try_from 3600 7200 3600 [] []
      = Except.ok (Scheduler.new ⟨3600, []⟩ [] ⟨7200, 3600⟩)) :=
  ⟨rfl, rfl, rfl⟩

/-- C10.  `Scheduler::next` mutates only `current_time`: the committed
interval lists, the task list, the allocator (granularity and plan set) and
the scheduling window are unchanged; the returned interval is recorded only
by the separate `Scheduler::schedule_task`, which conversely changes only the
committed interval lists. -/
theorem next_mutates_only_current_time (s : Scheduler) (hs : List Heuristic) :
    ((s.next hs).2.inner = s.inner ∧ (s.next hs).2.tasks = s.tasks ∧
      (s.next hs).2.allocator = s.allocator ∧ (s.next hs).2.interval = s.interval) ∧
    ∀ (task_idx : Nat) (iv : Interval),
      (s.schedule_task task_idx iv).tasks = s.tasks ∧
      (s.schedule_task task_idx iv).allocator = s.allocator ∧
      (s.schedule_task task_idx iv).interval = s.interval ∧
      (s.schedule_task task_idx iv).current_time = s.current_time := by
  constructor
  · unfold Scheduler.next
    by_cases h1 : s.current_time ≥ s.interval.stop
    · simp [h1]
    · by_cases h2 : (heuristicScores hs s).sum = 0
      · simp [h1, h2]
      · simp [h1, h2]
  · intro task_idx iv
    unfold Scheduler.schedule_task
    rcases h : s.inner.findIdx? (fun intervals =>
      match maxByEnd intervals with
      | none => false
      | some li => li.stop = iv.start) with _ | last_task
    · simp
    · by_cases h2 : last_task ≠ task_idx <;> simp [h2]

/-- A scheduler state with an over-committed task (volume 0, one committed
hour: remaining −1) and a task with a sub-epsilon remaining volume (2⁻³⁰). -/
def overdoneScheduler : Scheduler :=
  { inner := [[⟨0, 3600⟩], []]
    tasks := [⟨"T0", 86400, 1, 0, []⟩, ⟨"T1", 86400, 1, 1 / 2 ^ 30, []⟩]
    allocator := { granularity := 3600, plans := [] }
    interval := ⟨0, 86400⟩
    current_time := 3600 }

/-- Counterexample to C8 as stated: `get_missed_deadlines_tasks` compares the
remaining volume against exactly `0.0`, not against an epsilon tolerance: a
task with negative remaining volume and a task whose remaining volume is
positive but far below `f32::EPSILON` are both reported. -/
theorem get_missed_deadlines_no_epsilon :
    overdoneScheduler.get_missed_deadlines_tasks = [0, 1] ∧
    (overdoneScheduler.tasks.getD 0 default).volume -
        overdoneScheduler.get_total_task_hours 0 < 0 ∧
    0 < (overdoneScheduler.tasks.getD 1 default).volume -
        overdoneScheduler.get_total_task_hours 1 ∧
    (overdoneScheduler.tasks.getD 1 default).volume -
        overdoneScheduler.get_total_task_hours 1 < f32Epsilon := by
  refine ⟨?_, ?_, ?_, ?_⟩ <;>
    norm_num [Scheduler.get_missed_deadlines_tasks, overdoneScheduler,
      Scheduler.get_total_task_hours, Interval.hours, Interval.span, f32Epsilon,
      List.enum_cons, List.enumFrom]

/-- C8 amended.  `get_missed_deadlines_tasks` returns exactly the task
indices whose remaining volume (volume minus the sum of committed interval
hours) is nonzero — with no epsilon tolerance, so sub-epsilon and negative
remainders are reported too. -/
theorem get_missed_deadlines_iff (s : Scheduler) (idx : Nat) :
    idx ∈ s.get_missed_deadlines_tasks ↔
      idx < s.tasks.length ∧
        (s.tasks.getD idx default).volume - s.get_total_task_hours idx ≠ 0 := by
  unfold Scheduler.get_missed_deadlines_tasks
  rw [List.mem_map]
  constructor
  · rintro ⟨x, hx, rfl⟩
    have h2 := List.mem_filter.mp hx
    have h3 := List.mem_enum_iff_get?.mp h2.1
    have h4 : x.1 < s.tasks.length := by
      have := List.get?_eq_some.mp h3
      exact this.1
    refine ⟨h4, ?_⟩
    have h5 : s.tasks.getD x.1 default = x.2 := by
      rw [List.getD_eq_getElem?_getD, ← List.get?_eq_getElem?, h3]
      rfl
    rw [h5]
    simpa using h2.2
  · rintro ⟨h1, h2⟩
    refine ⟨(idx, s.tasks.getD idx default), ?_, rfl⟩
    refine List.mem_filter.mpr ⟨?_, by simpa using h2⟩
    refine List.mem_enum_iff_get?.mpr ?_
    rw [List.getD_eq_getElem?_getD, ← List.get?_eq_getElem?, List.get?_eq_get h1]
    rfl

lemma sum_eq_zero_iff_of_nonneg (l : List ℚ) (h : ∀ x ∈ l, 0 ≤ x) :
    l.sum = 0 ↔ ∀ x ∈ l, x = 0 := by
  induction l with
  | nil => simp
  | cons a t ih =>
    have ha := h a (List.mem_cons_self a t)
    have ht : ∀ x ∈ t, 0 ≤ x := fun x hx => h x (List.mem_cons_of_mem a hx)
    have hts : 0 ≤ t.sum := List.sum_nonneg ht
    simp only [List.sum_cons, List.mem_cons]
    constructor
    · intro h0
      have ha0 : a = 0 := by linarith
      have hts0 : t.sum = 0 := by linarith
      intro x hx
      rcases hx with rfl | hx
      · exact ha0
      · exact (ih ht).mp hts0 x hx
    · intro hall
      have ha0 : a = 0 := hall a (Or.inl rfl)
      have hts0 : t.sum = 0 := (ih ht).mpr fun x hx => hall x (Or.inr hx)
      rw [ha0, hts0, add_zero]

/-- C5 amended.  `Scheduler::next` returns `None` iff the cursor has reached
the window's end or the *sum* of the combined heuristic scores is exactly 0;
when every combined score is non-negative this coincides with every task's
combined score being 0, but with a negative score (e.g. the `volume`
heuristic on an over-committed task) the sum can vanish while individual
scores are nonzero. -/
theorem next_none_iff (s : Scheduler) (hs : List Heuristic) :
    ((s.next hs).1 = none ↔
      s.interval.stop ≤ s.current_time ∨ (heuristicScores hs s).sum = 0) ∧
    ((∀ i, i < s.tasks.length → 0 ≤ combinedScore hs s i) →
      ((heuristicScores hs s).sum = 0 ↔
        ∀ i, i < s.tasks.length → combinedScore hs s i = 0)) := by
  constructor
  · unfold Scheduler.next
    by_cases h1 : s.current_time ≥ s.interval.stop
    · simp [h1]
    · by_cases h2 : (heuristicScores hs s).sum = 0
      · simp [h1, h2]
      · simp [h1, h2]
  · intro hnn
    have hmem : ∀ x ∈ heuristicScores hs s, 0 ≤ x := by
      intro x hx
      obtain ⟨i, hi, rfl⟩ := List.mem_map.mp hx
      exact hnn i (List.mem_range.mp hi)
    rw [sum_eq_zero_iff_of_nonneg _ hmem]
    constructor
    · intro hall i hi
      exact hall _ (List.mem_map_of_mem _ (List.mem_range.mpr hi))
    · intro hall x hx
      obtain ⟨i, hi, rfl⟩ := List.mem_map.mp hx
      exact hall i (List.mem_range.mp hi)

/-- A state in which the `volume` heuristic yields +1 for task 0 and −1 for
task 1 (task 1 is over-committed through its configured volume): the score
sum is 0 although task 0 can progress. -/
def cancelScheduler : Scheduler :=
  { inner := [[], []]
    tasks := [⟨"A", 86400, 1, 1, []⟩, ⟨"B", 86400, 1, -1, []⟩]
    allocator := { granularity := 3600, plans := [] }
    interval := ⟨0, 86400⟩
    current_time := 0 }

/-- Counterexample to C5 as stated: `next` tests the *sum* of scores against
0.0, so it returns `None` inside the window even though task 0's combined
score is 1, not 0. -/
theorem next_none_with_nonzero_score :
    (cancelScheduler.next [heuristicVolume]).1 = none ∧
    cancelScheduler.current_time < cancelScheduler.interval.stop ∧
    combinedScore [heuristicVolume] cancelScheduler 0 = 1 := by
  have hsum : (heuristicScores [heuristicVolume] cancelScheduler).sum = 0 := by
    norm_num [heuristicScores, combinedScore, heuristicVolume, cancelScheduler,
      Scheduler.get_total_task_hours, List.range_succ]
  refine ⟨?_, by norm_num [cancelScheduler], ?_⟩
  · unfold Scheduler.next
    rw [if_neg (by norm_num [cancelScheduler])]
    simp [hsum]
  · norm_num [combinedScore, heuristicVolume, cancelScheduler,
      Scheduler.get_total_task_hours]

/-- Witness for the amended C5: on the test scheduler with the `volume`
heuristic every score is non-negative, so both parts apply. -/
theorem next_none_iff_witness :
    ((testScheduler.next [heuristicVolume]).1 = none ↔
      testScheduler.interval.stop ≤ testScheduler.current_time ∨
        (heuristicScores [heuristicVolume] testScheduler).sum = 0) ∧
    ((heuristicScores [heuristicVolume] testScheduler).sum = 0 ↔
      ∀ i, i < testScheduler.tasks.length →
        combinedScore [heuristicVolume] testScheduler i = 0) := by
  have h := next_none_iff testScheduler [heuristicVolume]
  refine ⟨h.1, h.2 ?_⟩
  intro i hi
  have hi6 : i < 6 := by simpa [testScheduler] using hi
  interval_cases i <;>
    norm_num [combinedScore, heuristicVolume, testScheduler,
      Scheduler.get_total_task_hours]

lemma mem_enumFrom_ge {l : List ℚ} :
    ∀ {n : Nat} {y : Nat × ℚ}, y ∈ List.enumFrom n l → n ≤ y.1 := by
  induction l with
  | nil =>
    intro n y h
    simp [List.enumFrom] at h
  | cons a t ih =>
    intro n y h
    simp only [List.enumFrom] at h
    rcases List.mem_cons.mp h with h2 | h2
    · rw [h2]
    · exact le_trans (Nat.le_succ n) (ih h2)

lemma pairwise_fst_lt_enumFrom (l : List ℚ) :
    ∀ n, (List.enumFrom n l).Pairwise fun a b => a.1 < b.1 := by
  induction l with
  | nil =>
    intro n
    simp [List.enumFrom]
  | cons a t ih =>
    intro n
    simp only [List.enumFrom]
    refine List.pairwise_cons.mpr ⟨?_, ih (n + 1)⟩
    intro y hy
    have := mem_enumFrom_ge hy
    simp only []
    omega

lemma enumFrom_getD {l : List ℚ} :
    ∀ {n : Nat} {y : Nat × ℚ}, y ∈ List.enumFrom n l →
      n ≤ y.1 ∧ y.1 - n < l.length ∧ l.getD (y.1 - n) 0 = y.2 := by
  induction l with
  | nil =>
    intro n y h
    simp [List.enumFrom] at h
  | cons a t ih =>
    intro n y h
    simp only [List.enumFrom] at h
    rcases List.mem_cons.mp h with h2 | h2
    · subst h2
      simp
    · obtain ⟨h3, h4, h5⟩ := ih h2
      refine ⟨by omega, by simp only [List.length_cons]; omega, ?_⟩
      have h6 : y.1 - n = (y.1 - (n + 1)) + 1 := by omega
      rw [h6, List.getD_cons_succ]
      exact h5

lemma enumFrom_mem_of_lt (l : List ℚ) :
    ∀ (n j : Nat), j < l.length → (n + j, l.getD j 0) ∈ List.enumFrom n l := by
  induction l with
  | nil =>
    intro n j h
    simp at h
  | cons a t ih =>
    intro n j h
    simp only [List.enumFrom]
    cases j with
    | zero => simp
    | succ k =>
      refine List.mem_cons_of_mem _ ?_
      have h2 := ih (n + 1) k (by simpa using h)
      have h3 : n + 1 + k = n + (k + 1) := by omega
      rw [h3] at h2
      simpa using h2

lemma foldl_pickMax_spec :
    ∀ (xs : List (Nat × ℚ)) (acc : Nat × ℚ),
      (∀ y ∈ xs, acc.1 < y.1) →
      (xs.Pairwise fun y z => y.1 < z.1) →
      (xs.foldl pickMax acc = acc ∨ xs.foldl pickMax acc ∈ xs) ∧
      acc.2 ≤ (xs.foldl pickMax acc).2 ∧
      (∀ y ∈ xs, y.2 ≤ (xs.foldl pickMax acc).2) ∧
      (acc.2 = (xs.foldl pickMax acc).2 → (xs.foldl pickMax acc).1 ≤ acc.1) ∧
      (∀ y ∈ xs, y.2 = (xs.foldl pickMax acc).2 → (xs.foldl pickMax acc).1 ≤ y.1) := by
  intro xs
  induction xs with
  | nil =>
    intro acc _ _
    simp
  | cons z rest ih =>
    intro acc hlt hpw
    have hpw' := List.pairwise_cons.mp hpw
    simp only [List.foldl_cons]
    by_cases hz : acc.2 < z.2
    · have hstep : pickMax acc z = z := by simp [pickMax, hz]
      rw [hstep]
      obtain ⟨hmem, haccb, hallb, htacc, htall⟩ := ih z hpw'.1 hpw'.2
      refine ⟨?_, ?_, ?_, ?_, ?_⟩
      · rcases hmem with h | h
        · exact Or.inr (by rw [h]; exact List.mem_cons_self z rest)
        · exact Or.inr (List.mem_cons_of_mem z h)
      · exact le_trans (le_of_lt hz) haccb
      · intro y hy
        rcases List.mem_cons.mp hy with h | h
        · rw [h]; exact haccb
        · exact hallb y h
      · intro hteq
        exfalso
        have : acc.2 < (rest.foldl pickMax z).2 := lt_of_lt_of_le hz haccb
        exact absurd hteq (ne_of_lt this)
      · intro y hy hteq
        rcases List.mem_cons.mp hy with h | h
        · subst h
          exact le_trans (htacc hteq) le_rfl
        · exact htall y h hteq
    · have hstep : pickMax acc z = acc := by simp [pickMax, hz]
      rw [hstep]
      obtain ⟨hmem, haccb, hallb, htacc, htall⟩ :=
        ih acc (fun y hy => hlt y (List.mem_cons_of_mem z hy)) hpw'.2
      refine ⟨?_, haccb, ?_, htacc, ?_⟩
      · rcases hmem with h | h
        · exact Or.inl h
        · exact Or.inr (List.mem_cons_of_mem z h)
      · intro y hy
        rcases List.mem_cons.mp hy with h | h
        · rw [h]
          exact le_trans (not_lt.mp hz) haccb
        · exact hallb y h
      · intro y hy hteq
        rcases List.mem_cons.mp hy with h | h
        · -- y = z ties the maximum: then acc also ties it, and acc comes first
          subst h
          have hz2 : y.2 ≤ acc.2 := not_lt.mp hz
          have hacc2 : acc.2 = (rest.foldl pickMax acc).2 :=
            le_antisymm haccb (by rw [← hteq]; exact hz2)
          exact le_trans (htacc hacc2)
            (le_of_lt (hlt y (List.mem_cons_self y rest)))
        · exact htall y h hteq

lemma selectIdx_lt_length (scores : List ℚ) (hne : scores ≠ []) :
    selectIdx scores < scores.length := by
  cases scores with
  | nil => exact absurd rfl hne
  | cons s0 t =>
    have hsel : selectIdx (s0 :: t) = ((List.enumFrom 1 t).foldl pickMax (0, s0)).1 := by
      unfold selectIdx
      rw [List.enum_cons]
    obtain ⟨hmem, -, -, -, -⟩ :=
      foldl_pickMax_spec (List.enumFrom 1 t) (0, s0)
        (fun y hy => lt_of_lt_of_le Nat.zero_lt_one (mem_enumFrom_ge hy))
        (pairwise_fst_lt_enumFrom t 1)
    rw [hsel]
    rcases hmem with h | h
    · rw [h]
      simp
    · obtain ⟨h1, h2, -⟩ := enumFrom_getD h
      simp only [List.length_cons]
      omega

lemma selectIdx_spec (scores : List ℚ) (hne : scores ≠ []) :
    ∀ j, j < scores.length →
      scores.getD j 0 ≤ scores.getD (selectIdx scores) 0 ∧
      (scores.getD j 0 = scores.getD (selectIdx scores) 0 → selectIdx scores ≤ j) := by
  cases scores with
  | nil => exact absurd rfl hne
  | cons s0 t =>
    have henum : (s0 :: t).enum = (0, s0) :: List.enumFrom 1 t := List.enum_cons
    have hsel : selectIdx (s0 :: t) = ((List.enumFrom 1 t).foldl pickMax (0, s0)).1 := by
      unfold selectIdx
      rw [henum]
    obtain ⟨hmem, haccb, hallb, htacc, htall⟩ :=
      foldl_pickMax_spec (List.enumFrom 1 t) (0, s0)
        (fun y hy => lt_of_lt_of_le Nat.zero_lt_one (mem_enumFrom_ge hy))
        (pairwise_fst_lt_enumFrom t 1)
    set r := (List.enumFrom 1 t).foldl pickMax (0, s0) with hrdef
    have hrval : (s0 :: t).getD r.1 0 = r.2 := by
      rcases hmem with h | h
      · rw [h]
        simp
      · obtain ⟨h1, h2, h3⟩ := enumFrom_getD h
        have h4 : r.1 = (r.1 - 1) + 1 := by omega
        rw [h4, List.getD_cons_succ]
        exact h3
    intro j hj
    rw [hsel, hrval]
    cases j with
    | zero =>
      refine ⟨haccb, ?_⟩
      intro hteq
      exact htacc hteq
    | succ k =>
      have hk : k < t.length := by simpa using hj
      have hy := enumFrom_mem_of_lt t 1 k hk
      have h1k : 1 + k = k + 1 := by omega
      rw [h1k] at hy
      constructor
      · have := hallb _ hy
        simpa using this
      · intro hteq
        have := htall _ hy (by simpa using hteq)
        simpa using this

/-- C6.  Whenever `Scheduler::next` returns `Some((idx, interval))`, task
`idx`'s combined heuristic score is greater than or equal to every task's
combined score, and `idx` is the lowest index attaining that maximum (the
`min_by` with the reversed comparator keeps the first maximal element). -/
theorem next_selects_max (s : Scheduler) (hs : List Heuristic) (idx : Nat) (iv : Interval)
    (h : (s.next hs).1 = some (idx, iv)) :
    ∀ j, j < s.tasks.length →
      combinedScore hs s j ≤ combinedScore hs s idx ∧
      (combinedScore hs s j = combinedScore hs s idx → idx ≤ j) := by
  unfold Scheduler.next at h
  by_cases h1 : s.current_time ≥ s.interval.stop
  · rw [if_pos h1] at h
    simp at h
  · rw [if_neg h1] at h
    by_cases h2 : (heuristicScores hs s).sum = 0
    · simp only [h2, if_pos] at h
      simp at h
    · simp only [h2, if_neg, if_false] at h
      have hidx : selectIdx (heuristicScores hs s) = idx := by
        simpa using congrArg (fun o => o.map Prod.fst) h
      have hlen : (heuristicScores hs s).length = s.tasks.length := by
        simp [heuristicScores]
      have hne : heuristicScores hs s ≠ [] := by
        intro hnil
        rw [hnil] at h2
        simp at h2
      have hgetD : ∀ j, j < s.tasks.length →
          (heuristicScores hs s).getD j 0 = combinedScore hs s j := by
        intro j hj
        unfold heuristicScores
        simp [List.getD_eq_getElem?_getD, List.getElem?_map, List.getElem?_range hj]
      intro j hj
      have hspec := selectIdx_spec (heuristicScores hs s) hne j (by omega)
      rw [hidx] at hspec
      have hidxlt : idx < s.tasks.length := by
        have h3 := selectIdx_lt_length (heuristicScores hs s) hne
        rw [hidx, hlen] at h3
        exact h3
      rw [hgetD j hj, hgetD idx hidxlt] at hspec
      exact hspec

/-- A two-task state where the `volume` heuristic scores are 1 and 2. -/
def twoTaskScheduler : Scheduler :=
  { inner := [[], []]
    tasks := [⟨"A", 86400, 1, 1, []⟩, ⟨"B", 86400, 1, 2, []⟩]
    allocator := { granularity := 3600, plans := [] }
    interval := ⟨0, 86400⟩
    current_time := 0 }

/-- Witness for C6: `next` picks task 1 (score 2 beats score 1) and the
maximality and tie-break conclusions hold at that concrete state. -/
theorem next_selects_max_witness :
    (twoTaskScheduler.next [heuristicVolume]).1 = some (1, ⟨0, 3600⟩) ∧
    ∀ j, j < twoTaskScheduler.tasks.length →
      combinedScore [heuristicVolume] twoTaskScheduler j ≤
        combinedScore [heuristicVolume] twoTaskScheduler 1 ∧
      (combinedScore [heuristicVolume] twoTaskScheduler j =
          combinedScore [heuristicVolume] twoTaskScheduler 1 → 1 ≤ j) := by
  have h : (twoTaskScheduler.next [heuristicVolume]).1 = some (1, ⟨0, 3600⟩) := by
    norm_num [Scheduler.next, heuristicScores, combinedScore, heuristicVolume,
      twoTaskScheduler, Scheduler.get_total_task_hours, List.range_succ, selectIdx,
      pickMax, List.enum_cons, List.enumFrom, TaskAllocatorWithPlans.allocate,
      i32cast, ratTrunc, allocStep, Interval.new, Interval.set_span]
  exact ⟨h, next_selects_max twoTaskScheduler [heuristicVolume] 1 ⟨0, 3600⟩ h⟩

end Panini
